import Mathlib

/-!
Verification of the variable-resolution and validation engine of the
primer-primitives build (src/script/build.ts and its data inputs).

Pure functions of `src/script/build.ts` (`validateDeprecatedVar`,
`validateRemovedVar`, `existsInCollection`, `forEachReplacementVar` and the
validation loop of `writeReplacements`) are translated directly from the
source.  The library modules `src/script/lib/variable-collection.ts` and
`src/script/lib/mode-collection.ts` are not part of the sources at hand;
the definitions that stand in for them are modelled from the
specification's description and are marked as such in their doc comments.
-/

/-- A fully resolved scalar token value (string or number). -/
inductive Scalar where
  | str (s : String)
  | num (n : Int)
deriving DecidableEq, Repr

/-- The resolved value stored in a variable: either a scalar, or a deferred
function of a runtime theme context, carried through unevaluated and
identified here only by an opaque tag. -/
inductive Value where
  | scalar (s : Scalar)
  | deferred (id : Nat)
deriving DecidableEq, Repr

/-- Modelled from the spec: the shape-polymorphic raw token values accepted by
`addFromObject` of the missing `variable-collection` module, as the tagged
variant the spec prescribes: a literal, a reference to another variable's
dotted name, a deferred function, or a nested mapping. -/
inductive Token where
  | literal (s : Scalar)
  | reference (name : String)
  | deferredFn (id : Nat)
  | nested (entries : List (String × Token))
deriving Repr

/-- Modelled from the spec: one resolved token of the missing
`variable-collection` module, holding the canonical name, the resolved
value, and the path of original nested-object keys. -/
structure Variable where
  name : String
  value : Value
  path : List String
deriving DecidableEq, Repr

/-- Modelled from the spec: one mode's flattened variable set of the missing
`variable-collection` module: a mode identifier, a group prefix, and the
insertion-ordered name-to-variable entries. -/
structure VariableCollection where
  mode : String
  pfx : String
  vars : List Variable
deriving DecidableEq, Repr

/-- The list of characters of a string split on a separator character,
mirroring the JavaScript `name.split('.')` used by `existsInCollection`. -/
def splitCharsAux (sep : Char) : List Char → List Char → List (List Char)
  | [], acc => [acc.reverse]
  | c :: rest, acc =>
    if c = sep then acc.reverse :: splitCharsAux sep rest []
    else splitCharsAux sep rest (c :: acc)

/-- `name.split('.')` of src/script/build.ts line 261: splits a dotted
variable name into its segments. -/
def splitDots (s : String) : List String :=
  (splitCharsAux '.' s.data []).map (fun l => { data := l })

/-- Modelled from the spec: the dotted join of the missing name resolver —
segments joined by `.`. -/
def joinDotsStr : List String → String
  | [] => ""
  | [s] => s
  | s :: s2 :: rest => s ++ "." ++ joinDotsStr (s2 :: rest)

/-- Modelled from the spec: `getFullName` of the missing
`variable-collection` module.  Joins the group prefix and the first path
segment with `-` and the remaining segments with `.`. -/
def getFullName (pfx : String) (path : List String) : String :=
  pfx ++ "-" ++ joinDotsStr path

/-- Modelled from the spec: `getByName` of the missing
`variable-collection` module — lookup of a variable by its canonical
name. -/
def VariableCollection.getByName (vc : VariableCollection) (name : String) :
    Option Variable :=
  vc.vars.find? (fun v => decide (v.name = name))

/-- Modelled from the spec: insertion with last-write-wins overwrite
semantics — a variable whose name is already present replaces the earlier
one in place, otherwise it is appended at the end of the insertion order. -/
def replaceVar : List Variable → Variable → List Variable
  | [], v => [v]
  | w :: rest, v => if w.name = v.name then v :: rest else w :: replaceVar rest v

/-- Modelled from the spec: inserting one variable into a collection. -/
def VariableCollection.insert (vc : VariableCollection) (v : Variable) :
    VariableCollection :=
  { vc with vars := replaceVar vc.vars v }

/-- The variable created for a leaf reached at a relative path and resolved
value, under a given prefix and base path. -/
def mkVar (pfx : String) (path : List String) (pv : List String × Value) : Variable :=
  { name := getFullName pfx (path ++ pv.1), value := pv.2, path := path ++ pv.1 }

/-- Errors produced while building a variable collection. -/
inductive BuildError where
  | undefinedReference (mode : String) (name : String)
deriving DecidableEq, Repr

/-- Modelled from the spec: resolving one leaf token against the variables
already inserted in the collection.  A literal resolves to itself, a
deferred function is carried through unevaluated, and a reference is looked
up — after prefixing — among the already-inserted variables; an absent
target is an undefined-reference error.  (Never invoked on a nested
mapping; that case is mapped to a dummy error.) -/
def VariableCollection.resolveLeaf (vc : VariableCollection) :
    Token → Except BuildError Value
  | .literal s => .ok (.scalar s)
  | .deferredFn i => .ok (.deferred i)
  | .reference n =>
    match vc.getByName (getFullName vc.pfx (splitDots n)) with
    | some v => .ok v.value
    | none => .error (.undefinedReference vc.mode n)
  | .nested _ => .error (.undefinedReference vc.mode "")

/-- Modelled from the spec: the recursive walk of `addFromObject` of the
missing `variable-collection` module.  Entries are processed in
declaration order; a nested mapping recurses with the path extended by its
key; any other value is a leaf, is resolved against the collection built so
far, and is inserted under its canonical full name. -/
def addFromObjectAux (vc : VariableCollection) (path : List String) :
    List (String × Token) → Except BuildError VariableCollection
  | [] => .ok vc
  | (k, .nested cs) :: rest =>
    match addFromObjectAux vc (path ++ [k]) cs with
    | .error e => .error e
    | .ok vc2 => addFromObjectAux vc2 path rest
  | (k, t) :: rest =>
    match vc.resolveLeaf t with
    | .error e => .error e
    | .ok v =>
      addFromObjectAux
        (vc.insert { name := getFullName vc.pfx (path ++ [k]), value := v,
                     path := path ++ [k] }) path rest

/-- Modelled from the spec: `addFromObject` — flattening a nested token
tree into the collection, starting from the empty path. -/
def VariableCollection.addFromObject (vc : VariableCollection)
    (entries : List (String × Token)) : Except BuildError VariableCollection :=
  addFromObjectAux vc [] entries

/-- The reconstructed nested output shape produced by `tree()`: leaves hold
resolved values. -/
inductive OutTree where
  | leaf (v : Value)
  | node (children : List (String × OutTree))
deriving Repr

/-- Modelled from the spec: the nested chain of singleton nodes created when
a variable's path opens entirely fresh keys. -/
def mkSub : List String → Value → OutTree
  | [], v => .leaf v
  | k :: rest, v => .node [(k, mkSub rest v)]

/-- Modelled from the spec: inserting one variable's path and value into a
partially reconstructed nested object, used by `tree()`. -/
def addPath : List (String × OutTree) → List String → Value →
    List (String × OutTree)
  | cs, [], _ => cs
  | [], k :: rest, v => [(k, mkSub rest v)]
  | (k2, t) :: cs, k :: rest, v =>
    if k2 = k then
      match rest, t with
      | [], _ => (k, .leaf v) :: cs
      | r1 :: rs, .node c => (k, .node (addPath c (r1 :: rs) v)) :: cs
      | r1 :: rs, .leaf _ => (k, mkSub (r1 :: rs) v) :: cs
    else
      (k2, t) :: addPath cs (k :: rest) v

/-- Modelled from the spec: `tree()` of the missing `variable-collection`
module — reconstructing the nested-object shape from the flat variable
list, using each variable's stored path, in insertion order. -/
def VariableCollection.tree (vc : VariableCollection) :
    List (String × OutTree) :=
  vc.vars.foldl (fun acc v => addPath acc v.path v.value) []

/-- Modelled from the spec: one token type's set of modes of the missing
`mode-collection` module. -/
structure ModeCollection where
  type : String
  pfx : String
  modes : List (String × VariableCollection)
deriving DecidableEq, Repr

/-- The variable names of one collection, in insertion order. -/
def VariableCollection.names (vc : VariableCollection) : List String :=
  vc.vars.map (fun v => v.name)

/-- A mode-parity validation error: the named mode is missing the named
variable. -/
inductive ModeError where
  | missingVariable (mode : String) (name : String)
deriving DecidableEq, Repr

/-- The result shape of `ModeCollection.validate`. -/
structure ValidationResult where
  isValid : Bool
  errors : List ModeError
deriving DecidableEq, Repr

/-- All variable names appearing in any mode of the collection, first
occurrences kept. -/
def ModeCollection.allNames (mc : ModeCollection) : List String :=
  ((mc.modes.map (fun m => m.2.names)).flatten).dedup

/-- Modelled from the spec: `validate()` of the missing `mode-collection`
module — checks name-set parity across modes, reporting one error for each
pair of a mode and a variable name that is defined in some mode but missing
from that one, collecting all errors without short-circuiting. -/
def ModeCollection.validate (mc : ModeCollection) : ValidationResult :=
  let all := mc.allNames
  let errors :=
    (mc.modes.map (fun m =>
      (all.filter (fun n => !(decide (n ∈ m.2.names)))).map
        (fun n => ModeError.missingVariable m.1 n))).flatten
  { isValid := errors.isEmpty, errors := errors }

/-- `existsInCollection` of src/script/build.ts lines 260-263: a dotted
name exists when, after prefixing, some mode's collection contains it. -/
def existsInCollection (collection : ModeCollection) (name : String) : Bool :=
  let varName := getFullName collection.pfx (splitDots name)
  collection.modes.any (fun m => (m.2.getByName varName).isSome)

/-- The JSON-like values a replacement ledger may hold. -/
inductive Json where
  | null
  | str (s : String)
  | num (n : Int)
  | bool (b : Bool)
  | arr (items : List Json)
  | obj (fields : List (String × Json))
deriving Repr

/-- The ledger validation errors of src/script/build.ts, with the chalk
formatting abstracted into tagged constructors carrying the same data as
the formatted messages. -/
inductive LedgerError where
  | staleDeprecation (varName : String) (inputFile : String)
  | invalidRemoval (varName : String) (inputFile : String)
  | invalidReplacementTarget (original : String) (replacement : Json)
      (inputFile : String)
  | undefinedReplacementTarget (original : String) (replacement : String)
      (inputFile : String)
  | chainedReplacement (original : String) (replacement : String)
      (inputFile : String)
deriving Repr

/-- `validateDeprecatedVar` of src/script/build.ts lines 160-169. -/
def validateDeprecatedVar (varName : String) (collection : ModeCollection)
    (inputFile : String) : List LedgerError :=
  if existsInCollection collection varName then []
  else [.staleDeprecation varName inputFile]

/-- `validateRemovedVar` of src/script/build.ts lines 175-186. -/
def validateRemovedVar (varName : String) (collection : ModeCollection)
    (inputFile : String) : List LedgerError :=
  if existsInCollection collection varName then [.invalidRemoval varName inputFile]
  else []

/-- `forEachReplacementVar` of src/script/build.ts lines 265-277, returning
the list of replacement targets the callback is invoked on: none for null,
each element for an array, the value itself otherwise. -/
def forEachReplacementVar (replacement : Json) : List Json :=
  match replacement with
  | .null => []
  | .arr items => items
  | r => [r]

/-- The per-target validation callback of `writeReplacements`
(src/script/build.ts lines 213-243): a non-string target is invalid; a
string target must exist in the collection, and — only once both earlier
checks pass — must not be a key of the ledger; each check returns early. -/
def validateReplacementTarget (ledgerKeys : List String)
    (collection : ModeCollection) (inputFile : String) (original : String)
    (t : Json) : List LedgerError :=
  match t with
  | .str s =>
    if !(existsInCollection collection s) then
      [.undefinedReplacementTarget original s inputFile]
    else if decide (s ∈ ledgerKeys) then
      [.chainedReplacement original s inputFile]
    else []
  | other => [.invalidReplacementTarget original other inputFile]

/-- The errors accumulated for one ledger entry by the validation loop of
`writeReplacements` (src/script/build.ts lines 209-244): first the
mode-specific validation of the original name, then each replacement
target's errors in order. -/
def validateLedgerEntry
    (validateVar : String → ModeCollection → String → List LedgerError)
    (ledgerKeys : List String) (collection : ModeCollection)
    (inputFile : String) (entry : String × Json) : List LedgerError :=
  validateVar entry.1 collection inputFile ++
    ((forEachReplacementVar entry.2).map
      (validateReplacementTarget ledgerKeys collection inputFile entry.1)).flatten

/-- The full validation pass of `writeReplacements` over a parsed ledger:
every entry is validated against the keys of the whole ledger, and all
errors are accumulated in order. -/
def validateReplacementMap
    (validateVar : String → ModeCollection → String → List LedgerError)
    (collection : ModeCollection) (inputFile : String)
    (replacementMap : List (String × Json)) : List LedgerError :=
  (replacementMap.map
    (validateLedgerEntry validateVar (replacementMap.map (fun e => e.1))
      collection inputFile)).flatten

/-- The decision step of `writeReplacements` (src/script/build.ts lines
246-252): when the accumulated error list is empty the replacement map is
passed on to be written; otherwise the full error list is raised for the
caller. -/
def writeReplacementsCheck
    (validateVar : String → ModeCollection → String → List LedgerError)
    (collection : ModeCollection) (inputFile : String)
    (replacementMap : List (String × Json)) :
    Except (List LedgerError) (List (String × Json)) :=
  let errors := validateReplacementMap validateVar collection inputFile replacementMap
  if errors.isEmpty then .ok replacementMap else .error errors

/-- The character-level form of the dotted join, used to reason about
injectivity of name construction. -/
def joinDotsData : List (List Char) → List Char
  | [] => []
  | [s] => s
  | s :: s2 :: rest => s ++ '.' :: joinDotsData (s2 :: rest)

/-- A well-formed name-resolver argument pair: the prefix contains no `-`
and the path is a non-empty sequence of segments containing no `.`. -/
def WFName (pfx : String) (path : List String) : Prop :=
  ¬ '-' ∈ pfx.data ∧ path ≠ [] ∧ ∀ s ∈ path, ¬ '.' ∈ s.data

instance (pfx : String) (path : List String) : Decidable (WFName pfx path) :=
  inferInstanceAs (Decidable (_ ∧ _ ∧ _))

/-- A well-formed nested token tree: at every level the keys are distinct
and free of `.`, and every nested mapping is non-empty. -/
def wfEntries : List (String × Token) → Bool
  | [] => true
  | (k, .nested cs) :: rest =>
    !(decide ('.' ∈ k.data)) && !(decide (k ∈ rest.map Prod.fst)) &&
      !cs.isEmpty && wfEntries cs && wfEntries rest
  | (k, _) :: rest =>
    !(decide ('.' ∈ k.data)) && !(decide (k ∈ rest.map Prod.fst)) && wfEntries rest

/-- The relative key paths of all leaves of a nested token tree, in
declaration order. -/
def relPaths : List (String × Token) → List (List String)
  | [] => []
  | (k, .nested cs) :: rest => (relPaths cs).map (fun p => k :: p) ++ relPaths rest
  | (k, _) :: rest => [k] :: relPaths rest

/-- The name existing in at least one mode of the collection, after
prefixing — the semantic reading of `existsInCollection`. -/
def ExistsInModes (c : ModeCollection) (name : String) : Prop :=
  ∃ m ∈ c.modes, ((m.2).getByName (getFullName c.pfx (splitDots name))).isSome = true

instance (c : ModeCollection) (n : String) : Decidable (ExistsInModes c n) :=
  List.decidableBEx _ c.modes

/-- How a leaf token relates to the resolved value stored for it: literals
and deferred functions are kept, a reference takes the resolved value of
the variable found under the prefixed referenced name. -/
inductive LeafVal : VariableCollection → Token → Value → Prop where
  | literal : ∀ vc s, LeafVal vc (.literal s) (.scalar s)
  | deferredFn : ∀ vc i, LeafVal vc (.deferredFn i) (.deferred i)
  | reference : ∀ vc n var, vc.getByName (getFullName vc.pfx (splitDots n)) = some var →
      LeafVal vc (.reference n) var.value

/-- The relative paths and resolved values contributed by a nested token
tree, in declaration order, with reference values read off the given
collection. -/
inductive RelVars : VariableCollection → List (String × Token) →
    List (List String × Value) → Prop where
  | nil : ∀ vc, RelVars vc [] []
  | leaf : ∀ vc k t v rest pvs, LeafVal vc t v → RelVars vc rest pvs →
      RelVars vc ((k, t) :: rest) (([k], v) :: pvs)
  | nested : ∀ vc k cs rest pvs1 pvs2, RelVars vc cs pvs1 → RelVars vc rest pvs2 →
      RelVars vc ((k, .nested cs) :: rest)
        (pvs1.map (fun pv => (k :: pv.1, pv.2)) ++ pvs2)

mutual
/-- A reconstructed output tree being structurally equal to a raw token,
up to replacing each reference expression by its resolved value as stored
in the given collection. -/
inductive TokenMatches : VariableCollection → Token → OutTree → Prop where
  | literal : ∀ vc s, TokenMatches vc (.literal s) (.leaf (.scalar s))
  | deferredFn : ∀ vc i, TokenMatches vc (.deferredFn i) (.leaf (.deferred i))
  | reference : ∀ vc n var,
      vc.getByName (getFullName vc.pfx (splitDots n)) = some var →
      TokenMatches vc (.reference n) (.leaf var.value)
  | nested : ∀ vc cs out, EntriesMatch vc cs out →
      TokenMatches vc (.nested cs) (.node out)

/-- Entry lists matching key by key, in order. -/
inductive EntriesMatch : VariableCollection → List (String × Token) →
    List (String × OutTree) → Prop where
  | nil : ∀ vc, EntriesMatch vc [] []
  | cons : ∀ vc k t o rest orest, TokenMatches vc t o → EntriesMatch vc rest orest →
      EntriesMatch vc ((k, t) :: rest) ((k, o) :: orest)
end

/-- A small token tree used to exercise the flatten/tree round trip. -/
def exEntries7 : List (String × Token) :=
  [("scale", .nested [("black", .literal (.str "#1b1f23"))]),
   ("fg", .nested [("default", .reference "scale.black")])]

/-- The collection produced by flattening `exEntries7` under prefix
`colors`. -/
def exVC7 : VariableCollection :=
  { mode := "light", pfx := "colors",
    vars := [{ name := "colors-scale.black", value := .scalar (.str "#1b1f23"),
               path := ["scale", "black"] },
             { name := "colors-fg.default", value := .scalar (.str "#1b1f23"),
               path := ["fg", "default"] }] }

/-- A one-variable light-mode collection holding `colors-fg`. -/
def exVCLight : VariableCollection :=
  { mode := "light", pfx := "colors",
    vars := [{ name := "colors-fg", value := .scalar (.str "#000"),
               path := ["fg"] }] }

/-- A one-variable dark-mode collection holding `colors-fg` with a value
different from the light mode's. -/
def exVCDark : VariableCollection :=
  { mode := "dark", pfx := "colors",
    vars := [{ name := "colors-fg", value := .scalar (.str "#fff"),
               path := ["fg"] }] }

/-- A dark-mode collection with no variables. -/
def exVCDarkEmpty : VariableCollection :=
  { mode := "dark", pfx := "colors", vars := [] }

/-- Two modes exposing the same variable name with different values. -/
def exMC9 : ModeCollection :=
  { type := "colors_v2", pfx := "colors",
    modes := [("light", exVCLight), ("dark", exVCDark)] }

/-- Two modes disagreeing on a name: `colors-fg` is present in `light` but
absent from `dark`. -/
def exMC10 : ModeCollection :=
  { type := "colors_v2", pfx := "colors",
    modes := [("light", exVCLight), ("dark", exVCDarkEmpty)] }

/-- A mode collection with no variables at all. -/
def cexMCEmpty : ModeCollection :=
  { type := "colors_v2", pfx := "colors", modes := [] }

/-- A deprecation ledger whose entry `a` points at the other ledger key
`b`, which is not defined in the collection. -/
def cexLedger3 : List (String × Json) := [("a", .str "b"), ("b", .null)]

/-- A removal ledger whose entry `x` points at the other ledger key `y`,
which is not defined in the collection. -/
def cexLedger4 : List (String × Json) := [("x", .str "y"), ("y", .null)]

/-- A light-mode collection in which `colors-b` is defined. -/
def exVCWithB : VariableCollection :=
  { mode := "light", pfx := "colors",
    vars := [{ name := "colors-b", value := .scalar (.str "#111"),
               path := ["b"] }] }

/-- A collection in which `colors-b` is defined. -/
def exMC4 : ModeCollection :=
  { type := "colors_v2", pfx := "colors", modes := [("light", exVCWithB)] }

/-- A deprecation ledger whose entry `a` points at the other ledger key
`b`, which is defined in the collection. -/
def exLedger4 : List (String × Json) := [("a", .str "b"), ("b", .null)]

theorem existsInCollection_iff (c : ModeCollection) (n : String) :
    existsInCollection c n = true ↔ ExistsInModes c n := by
  simp [existsInCollection, ExistsInModes, List.any_eq_true]

theorem existsInCollection_eq_false (c : ModeCollection) (n : String) :
    existsInCollection c n = false ↔ ¬ ExistsInModes c n := by
  rw [← existsInCollection_iff]
  cases existsInCollection c n <;> simp

/-- C1: a ledger entry validated in deprecated mode yields an error exactly
when the original name, after prefixing, exists in no mode of the
collection, and in that case the error is unique. -/
theorem claim1_deprecated_error_iff :
    ∀ (v : String) (c : ModeCollection) (f : String),
      validateDeprecatedVar v c f =
        (if ExistsInModes c v then [] else [LedgerError.staleDeprecation v f]) ∧
      (validateDeprecatedVar v c f).length ≤ 1 := by
  intro v c f
  constructor
  · by_cases h : ExistsInModes c v
    · simp [validateDeprecatedVar, (existsInCollection_iff c v).mpr h, h]
    · simp [validateDeprecatedVar, (existsInCollection_eq_false c v).mpr h, h]
  · by_cases h : existsInCollection c v <;> simp [validateDeprecatedVar, h]

/-- C2: a ledger entry validated in removed mode yields an error exactly
when the original name, after prefixing, still exists in some mode of the
collection, and in that case the error is unique. -/
theorem claim2_removed_error_iff :
    ∀ (v : String) (c : ModeCollection) (f : String),
      validateRemovedVar v c f =
        (if ExistsInModes c v then [LedgerError.invalidRemoval v f] else []) ∧
      (validateRemovedVar v c f).length ≤ 1 := by
  intro v c f
  constructor
  · by_cases h : ExistsInModes c v
    · simp [validateRemovedVar, (existsInCollection_iff c v).mpr h, h]
    · simp [validateRemovedVar, (existsInCollection_eq_false c v).mpr h, h]
  · by_cases h : existsInCollection c v <;> simp [validateRemovedVar, h]

/-- C3 counterexample: in the ledger `{a: "b", b: null}` validated against
an empty collection, the target `"b"` of entry `a` violates both the
existence condition and the not-another-ledger-key condition, yet only the
undefined-target error is reported — the chained-replacement violation is
not reported as an error, so not every violated condition is reported. -/
theorem claim3_counterexample :
    Json.str "b" ∈ forEachReplacementVar (Json.str "b") ∧
    "b" ∈ cexLedger3.map (fun e => e.1) ∧ ("b" : String) ≠ "a" ∧
    existsInCollection cexMCEmpty "b" = false ∧
    validateReplacementMap validateDeprecatedVar cexMCEmpty "deprecated.json"
        cexLedger3 =
      [.staleDeprecation "a" "deprecated.json",
       .undefinedReplacementTarget "a" "b" "deprecated.json",
       .staleDeprecation "b" "deprecated.json"] ∧
    ¬ LedgerError.chainedReplacement "a" "b" "deprecated.json" ∈
        validateReplacementMap validateDeprecatedVar cexMCEmpty "deprecated.json"
          cexLedger3 := by
  refine ⟨by simp [forEachReplacementVar], by simp [cexLedger3], by simp, rfl, rfl, ?_⟩
  intro h
  rw [show validateReplacementMap validateDeprecatedVar cexMCEmpty "deprecated.json"
        cexLedger3 =
      [.staleDeprecation "a" "deprecated.json",
       .undefinedReplacementTarget "a" "b" "deprecated.json",
       .staleDeprecation "b" "deprecated.json"] from rfl] at h
  simp at h

/-- C3 amended: replacement values unwrap as the claim states (null yields
no targets, a string yields itself, a sequence yields its elements), but
the three target conditions are checked in order — string, then existence
after prefixing, then not being a key of the same ledger (its own key
included) — and only the first violated condition is reported, giving at
most one error per target. -/
theorem claim3_targets_checked_in_order :
    (forEachReplacementVar Json.null = [] ∧
     (∀ s, forEachReplacementVar (Json.str s) = [Json.str s]) ∧
     (∀ l, forEachReplacementVar (Json.arr l) = l)) ∧
    (∀ (keys : List String) (c : ModeCollection) (f o : String) (t : Json),
      validateReplacementTarget keys c f o t =
        (match t with
         | Json.str s =>
           if ExistsInModes c s then
             (if s ∈ keys then [LedgerError.chainedReplacement o s f] else [])
           else [LedgerError.undefinedReplacementTarget o s f]
         | other => [LedgerError.invalidReplacementTarget o other f]) ∧
      (validateReplacementTarget keys c f o t).length ≤ 1) := by
  refine ⟨⟨rfl, fun s => rfl, fun l => rfl⟩, ?_⟩
  intro keys c f o t
  constructor
  · cases t with
    | str s =>
      by_cases h : ExistsInModes c s
      · simp [validateReplacementTarget, (existsInCollection_iff c s).mpr h, h]
      · simp [validateReplacementTarget, (existsInCollection_eq_false c s).mpr h, h]
    | null => rfl
    | num n => rfl
    | bool b => rfl
    | arr l => rfl
    | obj l => rfl
  · cases t with
    | str s =>
      by_cases h : existsInCollection c s <;>
        by_cases h2 : s ∈ keys <;> simp [validateReplacementTarget, h, h2]
    | null => simp [validateReplacementTarget]
    | num n => simp [validateReplacementTarget]
    | bool b => simp [validateReplacementTarget]
    | arr l => simp [validateReplacementTarget]
    | obj l => simp [validateReplacementTarget]

/-- C4 counterexample: in the removal ledger `{x: "y", y: null}` validated
against an empty collection, the target `"y"` of entry `x` equals the other
ledger key `y` (whose own entry validates, as `y` is indeed absent), yet no
chained-replacement error is reported — only the undefined-target error. -/
theorem claim4_counterexample :
    ("x", Json.str "y") ∈ cexLedger4 ∧
    "y" ∈ cexLedger4.map (fun e => e.1) ∧ ("y" : String) ≠ "x" ∧
    validateRemovedVar "y" cexMCEmpty "removed.json" = [] ∧
    validateReplacementMap validateRemovedVar cexMCEmpty "removed.json" cexLedger4 =
      [.undefinedReplacementTarget "x" "y" "removed.json"] ∧
    (∀ o s f, ¬ LedgerError.chainedReplacement o s f ∈
        validateReplacementMap validateRemovedVar cexMCEmpty "removed.json"
          cexLedger4) := by
  refine ⟨by simp [cexLedger4], by simp [cexLedger4], by simp, rfl, rfl, ?_⟩
  intro o s f h
  rw [show validateReplacementMap validateRemovedVar cexMCEmpty "removed.json"
        cexLedger4 = [.undefinedReplacementTarget "x" "y" "removed.json"] from rfl] at h
  simp at h

/-- C4 amended: whenever a ledger entry's replacement target is a string
that exists in the collection after prefixing and is a key of the same
ledger, a chained-replacement error is reported for that entry — whatever
the per-mode validator says about any entry (so regardless of whether the
pointed-at key's own entry validates); but when the target fails the
existence check, the undefined-target error preempts the chained one. -/
theorem claim4_chained_when_target_defined :
    ∀ (validateVar : String → ModeCollection → String → List LedgerError)
      (c : ModeCollection) (f : String) (ledger : List (String × Json))
      (o : String) (r : Json) (s : String),
      (o, r) ∈ ledger →
      Json.str s ∈ forEachReplacementVar r →
      ExistsInModes c s →
      s ∈ ledger.map (fun e => e.1) →
      LedgerError.chainedReplacement o s f ∈
        validateReplacementMap validateVar c f ledger := by
  intro vv c f ledger o r s hmem htgt hex hkey
  unfold validateReplacementMap
  refine List.mem_flatten.mpr
    ⟨validateLedgerEntry vv (ledger.map (fun e => e.1)) c f (o, r),
     List.mem_map_of_mem _ hmem, ?_⟩
  unfold validateLedgerEntry
  refine List.mem_append_right _ ?_
  refine List.mem_flatten.mpr
    ⟨validateReplacementTarget (ledger.map (fun e => e.1)) c f o (Json.str s),
     List.mem_map_of_mem _ htgt, ?_⟩
  simp [validateReplacementTarget, (existsInCollection_iff c s).mpr hex, hkey]

/-- C4 amended, witnessed at a concrete input: in the ledger
`{a: "b", b: null}` with `colors-b` defined in the collection, the chained
error for entry `a` is reported. -/
theorem claim4_chained_w :
    (("a", Json.str "b") ∈ exLedger4 ∧
     Json.str "b" ∈ forEachReplacementVar (Json.str "b") ∧
     ExistsInModes exMC4 "b" ∧ "b" ∈ exLedger4.map (fun e => e.1)) ∧
    LedgerError.chainedReplacement "a" "b" "deprecated.json" ∈
      validateReplacementMap validateDeprecatedVar exMC4 "deprecated.json"
        exLedger4 :=
  ⟨⟨by simp [exLedger4], by simp [forEachReplacementVar], by decide,
    by simp [exLedger4]⟩,
   claim4_chained_when_target_defined validateDeprecatedVar exMC4
     "deprecated.json" exLedger4 "a" (Json.str "b") "b" (by simp [exLedger4])
     (by simp [forEachReplacementVar]) (by decide) (by simp [exLedger4])⟩

/-- C5: the validation pass accumulates, in order, the errors of every
entry of the ledger — an entry's errors appear in the result wherever the
entry sits, independently of earlier entries' violations — and the
fatality decision of `writeReplacements` is a function of the completed
error list, which is handed back whole. -/
theorem claim5_accumulates_all :
    ∀ (validateVar : String → ModeCollection → String → List LedgerError)
      (c : ModeCollection) (f : String) (pre post : List (String × Json))
      (e : String × Json),
      validateReplacementMap validateVar c f (pre ++ e :: post) =
        (pre.map (validateLedgerEntry validateVar
            ((pre ++ e :: post).map (fun x => x.1)) c f)).flatten ++
          validateLedgerEntry validateVar
            ((pre ++ e :: post).map (fun x => x.1)) c f e ++
          (post.map (validateLedgerEntry validateVar
            ((pre ++ e :: post).map (fun x => x.1)) c f)).flatten ∧
      (∀ m, writeReplacementsCheck validateVar c f m =
          if (validateReplacementMap validateVar c f m).isEmpty then .ok m
          else .error (validateReplacementMap validateVar c f m)) := by
  intro vv c f pre post e
  constructor
  · simp [validateReplacementMap, List.append_assoc]
  · intro m; rfl

/-- C10: `existsInCollection` holds exactly when the prefixed name is
present in at least one mode's collection; concretely, a name defined in
the light mode but missing from the dark mode still counts as defined. -/
theorem claim10_exists_any_mode :
    (∀ (c : ModeCollection) (n : String),
        existsInCollection c n = true ↔ ExistsInModes c n) ∧
    existsInCollection exMC10 "fg" = true ∧
    exVCDarkEmpty.getByName (getFullName "colors" (splitDots "fg")) = none := by
  refine ⟨existsInCollection_iff, by decide, by decide⟩

theorem joinDotsStr_data :
    ∀ l : List String, (joinDotsStr l).data = joinDotsData (l.map String.data) := by
  intro l
  induction l with
  | nil => rfl
  | cons s rest ih =>
    cases rest with
    | nil => rfl
    | cons s2 t =>
      show (s ++ "." ++ joinDotsStr (s2 :: t)).data = _
      simp only [String.data_append, ih]
      simp [joinDotsData, List.append_assoc]

theorem sep_split_inj (c : Char) :
    ∀ (l₁ l₂ r₁ r₂ : List Char), ¬ c ∈ l₁ → ¬ c ∈ l₂ →
      l₁ ++ c :: r₁ = l₂ ++ c :: r₂ → l₁ = l₂ ∧ r₁ = r₂ := by
  intro l₁
  induction l₁ with
  | nil =>
    intro l₂ r₁ r₂ _ h₂ h
    cases l₂ with
    | nil => simpa using h
    | cons b t =>
      exfalso
      simp only [List.nil_append, List.cons_append, List.cons.injEq] at h
      exact h₂ (h.1 ▸ List.mem_cons_self b t)
  | cons a t ih =>
    intro l₂ r₁ r₂ h₁ h₂ h
    cases l₂ with
    | nil =>
      exfalso
      simp only [List.nil_append, List.cons_append, List.cons.injEq] at h
      exact h₁ (h.1.symm ▸ List.mem_cons_self a t)
    | cons b t₂ =>
      simp only [List.cons_append, List.cons.injEq] at h
      have := ih t₂ r₁ r₂ (fun hm => h₁ (List.mem_cons_of_mem a hm))
        (fun hm => h₂ (List.mem_cons_of_mem b hm)) h.2
      exact ⟨by rw [h.1, this.1], this.2⟩

theorem joinDotsData_inj :
    ∀ ss₁ ss₂ : List (List Char),
      (∀ s ∈ ss₁, ¬ '.' ∈ s) → (∀ s ∈ ss₂, ¬ '.' ∈ s) →
      ss₁ ≠ [] → ss₂ ≠ [] → joinDotsData ss₁ = joinDotsData ss₂ → ss₁ = ss₂ := by
  intro ss₁
  induction ss₁ with
  | nil => intro ss₂ _ _ hne; exact absurd rfl hne
  | cons a t ih =>
    intro ss₂ h₁ h₂ _ hne₂ h
    cases ss₂ with
    | nil => exact absurd rfl hne₂
    | cons b t₂ =>
      cases t with
      | nil =>
        cases t₂ with
        | nil =>
          have : a = b := h
          rw [this]
        | cons c t₃ =>
          exfalso
          have : a = b ++ '.' :: joinDotsData (c :: t₃) := h
          exact h₁ a (List.mem_cons_self a []) (this ▸
            List.mem_append_right b (List.mem_cons_self '.' _))
      | cons a2 t' =>
        cases t₂ with
        | nil =>
          exfalso
          have : a ++ '.' :: joinDotsData (a2 :: t') = b := h
          exact h₂ b (List.mem_cons_self b []) (this ▸
            List.mem_append_right a (List.mem_cons_self '.' _))
        | cons b2 t₂' =>
          have h' : a ++ '.' :: joinDotsData (a2 :: t') =
              b ++ '.' :: joinDotsData (b2 :: t₂') := h
          have hsplit := sep_split_inj '.' a b _ _
            (h₁ a (List.mem_cons_self a _)) (h₂ b (List.mem_cons_self b _)) h'
          have htail := ih (b2 :: t₂')
            (fun s hs => h₁ s (List.mem_cons_of_mem a hs))
            (fun s hs => h₂ s (List.mem_cons_of_mem b hs))
            (by simp) (by simp) hsplit.2
          rw [hsplit.1, htail]

theorem getFullName_data (p : String) (segs : List String) :
    (getFullName p segs).data =
      p.data ++ '-' :: joinDotsData (segs.map String.data) := by
  show (p ++ "-" ++ joinDotsStr segs).data = _
  simp only [String.data_append, joinDotsStr_data]
  simp [List.append_assoc]

theorem string_data_injective : Function.Injective String.data := by
  intro a b h
  exact String.ext h

theorem getFullName_inj :
    ∀ (p₁ p₂ : String) (s₁ s₂ : List String), WFName p₁ s₁ → WFName p₂ s₂ →
      getFullName p₁ s₁ = getFullName p₂ s₂ → p₁ = p₂ ∧ s₁ = s₂ := by
  intro p₁ p₂ s₁ s₂ hw₁ hw₂ h
  obtain ⟨hd₁, hne₁, hdot₁⟩ := hw₁
  obtain ⟨hd₂, hne₂, hdot₂⟩ := hw₂
  have hdata : p₁.data ++ '-' :: joinDotsData (s₁.map String.data) =
      p₂.data ++ '-' :: joinDotsData (s₂.map String.data) := by
    rw [← getFullName_data, ← getFullName_data, h]
  have hsplit := sep_split_inj '-' p₁.data p₂.data _ _ hd₁ hd₂ hdata
  have hjoin := joinDotsData_inj (s₁.map String.data) (s₂.map String.data)
    (by intro s hs
        obtain ⟨x, hx, rfl⟩ := List.mem_map.mp hs
        exact hdot₁ x hx)
    (by intro s hs
        obtain ⟨x, hx, rfl⟩ := List.mem_map.mp hs
        exact hdot₂ x hx)
    (by simpa using hne₁) (by simpa using hne₂) hsplit.2
  exact ⟨String.ext hsplit.1,
    (List.map_injective_iff.mpr string_data_injective) hjoin⟩

theorem getFullName_inj_same_pfx :
    ∀ (p : String) (s₁ s₂ : List String),
      s₁ ≠ [] → s₂ ≠ [] → (∀ s ∈ s₁, ¬ '.' ∈ s.data) → (∀ s ∈ s₂, ¬ '.' ∈ s.data) →
      getFullName p s₁ = getFullName p s₂ → s₁ = s₂ := by
  intro p s₁ s₂ hne₁ hne₂ hdot₁ hdot₂ h
  have hdata : p.data ++ '-' :: joinDotsData (s₁.map String.data) =
      p.data ++ '-' :: joinDotsData (s₂.map String.data) := by
    rw [← getFullName_data, ← getFullName_data, h]
  have hjoins := List.cons.injEq .. ▸ List.append_cancel_left hdata
  have hjoin : joinDotsData (s₁.map String.data) =
      joinDotsData (s₂.map String.data) := by
    have := List.append_cancel_left hdata
    simpa using this
  have := joinDotsData_inj (s₁.map String.data) (s₂.map String.data)
    (by intro s hs
        obtain ⟨x, hx, rfl⟩ := List.mem_map.mp hs
        exact hdot₁ x hx)
    (by intro s hs
        obtain ⟨x, hx, rfl⟩ := List.mem_map.mp hs
        exact hdot₂ x hx)
    (by simpa using hne₁) (by simpa using hne₂) hjoin
  exact (List.map_injective_iff.mpr string_data_injective) this

/-- The trailing dotted-segment suffix of a full name. -/
def joinTail : List String → String
  | [] => ""
  | s :: t => "." ++ s ++ joinTail t

theorem joinDotsStr_cons :
    ∀ (rest : List String) (a : String), joinDotsStr (a :: rest) = a ++ joinTail rest := by
  intro rest
  induction rest with
  | nil => intro a; exact (String.append_empty a).symm
  | cons b t ih =>
    intro a
    show a ++ "." ++ joinDotsStr (b :: t) = a ++ ("." ++ b ++ joinTail t)
    rw [ih b]
    simp [String.append_assoc]

theorem foldl_dot_append :
    ∀ (rest : List String) (x : String),
      (rest.map (fun s => "." ++ s)).foldl (fun acc s => acc ++ s) x =
        x ++ joinTail rest := by
  intro rest
  induction rest with
  | nil => intro x; exact (String.append_empty x).symm
  | cons s t ih =>
    intro x
    show (t.map (fun s => "." ++ s)).foldl (fun acc s => acc ++ s) (x ++ ("." ++ s)) =
      x ++ ("." ++ s ++ joinTail t)
    rw [ih (x ++ ("." ++ s))]
    simp [String.append_assoc]

/-- C6: the full name of a non-empty path joins the prefix and the first
segment with `-` and appends each remaining segment prefixed by `.` — as in
the spec's example prefix/3-segment form — and the construction is
injective on well-formed distinct prefix/path pairs. -/
theorem claim6_fullName :
    (∀ (p a : String) (rest : List String),
        getFullName p (a :: rest) =
          (rest.map (fun s => "." ++ s)).foldl (fun acc s => acc ++ s)
            (p ++ "-" ++ a)) ∧
    (∀ p a b c : String,
        getFullName p [a, b, c] = p ++ "-" ++ a ++ "." ++ b ++ "." ++ c) ∧
    (∀ (p₁ p₂ : String) (s₁ s₂ : List String), WFName p₁ s₁ → WFName p₂ s₂ →
        getFullName p₁ s₁ = getFullName p₂ s₂ → p₁ = p₂ ∧ s₁ = s₂) := by
  refine ⟨?_, ?_, getFullName_inj⟩
  · intro p a rest
    show p ++ "-" ++ joinDotsStr (a :: rest) = _
    rw [foldl_dot_append, joinDotsStr_cons]
    simp [String.append_assoc]
  · intro p a b c
    show p ++ "-" ++ joinDotsStr [a, b, c] = _
    show p ++ "-" ++ (a ++ "." ++ (b ++ "." ++ c)) = _
    simp [String.append_assoc]

/-- C6 witnessed at a concrete well-formed input. -/
theorem claim6_fullName_w :
    (WFName "colors" ["btn", "bg"] ∧ WFName "colors" ["btn", "bg"]) ∧
    ("colors" : String) = "colors" ∧ (["btn", "bg"] : List String) = ["btn", "bg"] :=
  ⟨⟨by decide, by decide⟩,
    claim6_fullName.2.2 "colors" "colors" ["btn", "bg"] ["btn", "bg"]
      (by decide) (by decide) rfl⟩

theorem count_flatten {α : Type} [BEq α] :
    ∀ (L : List (List α)) (a : α),
      L.flatten.count a = (L.map (fun l => l.count a)).sum := by
  intro L a
  induction L with
  | nil => rfl
  | cons l t ih => simp [List.flatten_cons, List.count_append, ih]

theorem count_map_missing (m' m n : String) :
    ∀ l : List String,
      ((l.map (fun x => ModeError.missingVariable m' x)).count
          (ModeError.missingVariable m n)) =
        if m' = m then l.count n else 0 := by
  intro l
  induction l with
  | nil => simp
  | cons x t ih =>
    rw [List.map_cons, List.count_cons, ih, List.count_cons]
    by_cases h1 : m' = m
    · subst h1
      by_cases h2 : x = n
      · subst h2; simp
      · simp [h2]
    · simp [h1, Ne.symm h1]

theorem keys_nodup_eq :
    ∀ (l : List (String × VariableCollection)),
      (l.map Prod.fst).Nodup →
      ∀ (m : String) (a b : VariableCollection), (m, a) ∈ l → (m, b) ∈ l → a = b := by
  intro l
  induction l with
  | nil => simp
  | cons x t ih =>
    intro hnd m a b ha hb
    rw [List.map_cons, List.nodup_cons] at hnd
    rcases List.mem_cons.mp ha with ha1 | ha2
    · rcases List.mem_cons.mp hb with hb1 | hb2
      · rw [← ha1] at hb1
        exact (Prod.mk.injEq .. ▸ hb1).2.symm
      · exfalso
        apply hnd.1
        rw [show x.1 = m from by rw [← ha1]]
        exact List.mem_map_of_mem Prod.fst hb2
    · rcases List.mem_cons.mp hb with hb1 | hb2
      · exfalso
        apply hnd.1
        rw [show x.1 = m from by rw [← hb1]]
        exact List.mem_map_of_mem Prod.fst ha2
      · exact ih hnd.2 m a b ha2 hb2

theorem validate_count_zero_of_not_mem (all : List String) (m n : String) :
    ∀ (modes : List (String × VariableCollection)),
      ¬ m ∈ modes.map Prod.fst →
      ((modes.map (fun p =>
          (all.filter (fun x => !(decide (x ∈ p.2.names)))).map
            (fun x => ModeError.missingVariable p.1 x))).flatten).count
        (ModeError.missingVariable m n) = 0 := by
  intro modes
  induction modes with
  | nil => simp
  | cons p t ih =>
    intro hm
    rw [List.map_cons, List.flatten_cons, List.count_append, count_map_missing]
    have hp : ¬ p.1 = m := fun h => hm (h ▸ List.mem_map_of_mem Prod.fst (List.mem_cons_self p t))
    rw [if_neg hp, ih (fun h => hm (List.mem_cons_of_mem _ h))]

theorem validate_count_mem (all : List String) (m n : String) (vc : VariableCollection) :
    ∀ (modes : List (String × VariableCollection)),
      (modes.map Prod.fst).Nodup → (m, vc) ∈ modes →
      ((modes.map (fun p =>
          (all.filter (fun x => !(decide (x ∈ p.2.names)))).map
            (fun x => ModeError.missingVariable p.1 x))).flatten).count
        (ModeError.missingVariable m n) =
      (all.filter (fun x => !(decide (x ∈ vc.names)))).count n := by
  intro modes
  induction modes with
  | nil => simp
  | cons p t ih =>
    intro hnd hm
    rw [List.map_cons, List.nodup_cons] at hnd
    rw [List.map_cons, List.flatten_cons, List.count_append, count_map_missing]
    rcases List.mem_cons.mp hm with h1 | h2
    · have hp1 : p.1 = m := by rw [← h1]
      have hp2 : p.2 = vc := by rw [← h1]
      rw [if_pos hp1, hp2, validate_count_zero_of_not_mem all m n t (hp1 ▸ hnd.1)]
      simp
    · have hp : ¬ p.1 = m := by
        intro h
        exact hnd.1 (h ▸ List.mem_map_of_mem Prod.fst h2)
      rw [if_neg hp, ih hnd.2 h2]
      simp

theorem mem_allNames_iff (mc : ModeCollection) (n : String) :
    n ∈ mc.allNames ↔ ∃ p ∈ mc.modes, n ∈ p.2.names := by
  unfold ModeCollection.allNames
  rw [List.mem_dedup]
  simp only [List.mem_flatten, List.mem_map]
  constructor
  · rintro ⟨l, ⟨p, hp, rfl⟩, hn⟩
    exact ⟨p, hp, hn⟩
  · rintro ⟨p, hp, hn⟩
    exact ⟨p.2.names, ⟨p, hp, rfl⟩, hn⟩

theorem validate_isValid_iff (mc : ModeCollection) :
    mc.validate.isValid = true ↔
      ∀ p ∈ mc.modes, ∀ n ∈ mc.allNames, n ∈ p.2.names := by
  show ((mc.modes.map _).flatten).isEmpty = true ↔ _
  rw [List.isEmpty_iff, List.flatten_eq_nil_iff]
  constructor
  · intro h p hp n hn
    have hl := h _ (List.mem_map_of_mem _ hp)
    rw [List.map_eq_nil_iff, List.filter_eq_nil_iff] at hl
    have := hl n hn
    simpa using this
  · intro h l hl
    obtain ⟨p, hp, rfl⟩ := List.mem_map.mp hl
    rw [List.map_eq_nil_iff, List.filter_eq_nil_iff]
    intro n hn
    simp [h p hp n hn]

theorem allNames_subset_iff_pairwise (mc : ModeCollection) :
    (∀ p ∈ mc.modes, ∀ n ∈ mc.allNames, n ∈ p.2.names) ↔
      (∀ p₁ p₂, p₁ ∈ mc.modes → p₂ ∈ mc.modes →
        ∀ n, n ∈ p₁.2.names ↔ n ∈ p₂.2.names) := by
  constructor
  · intro h p₁ p₂ hp₁ hp₂ n
    constructor
    · intro hn
      exact h p₂ hp₂ n ((mem_allNames_iff mc n).mpr ⟨p₁, hp₁, hn⟩)
    · intro hn
      exact h p₁ hp₁ n ((mem_allNames_iff mc n).mpr ⟨p₂, hp₂, hn⟩)
  · intro h p hp n hn
    obtain ⟨q, hq, hqn⟩ := (mem_allNames_iff mc n).mp hn
    exact (h q p hq hp n).mp hqn

/-- C9: `validate()` reports validity exactly when all modes expose the same
variable name sets (values may differ), and otherwise reports exactly one
error for each pair of a mode and a variable name defined elsewhere but
missing from that mode, with all such errors collected. -/
theorem claim9_validate :
    ∀ mc : ModeCollection, (mc.modes.map Prod.fst).Nodup →
      ((mc.validate.isValid = true) ↔
        (∀ p₁ p₂, p₁ ∈ mc.modes → p₂ ∈ mc.modes →
          ∀ n, n ∈ p₁.2.names ↔ n ∈ p₂.2.names)) ∧
      (∀ (m : String) (vc : VariableCollection) (n : String), (m, vc) ∈ mc.modes →
        mc.validate.errors.count (ModeError.missingVariable m n) =
          if n ∈ mc.allNames ∧ ¬ n ∈ vc.names then 1 else 0) := by
  intro mc hnd
  constructor
  · rw [validate_isValid_iff]
    exact allNames_subset_iff_pairwise mc
  · intro m vc n hm
    show ((mc.modes.map _).flatten).count _ = _
    rw [validate_count_mem mc.allNames m n vc mc.modes hnd hm]
    by_cases h1 : n ∈ mc.allNames
    · by_cases h2 : n ∈ vc.names
      · rw [if_neg (by simp [h2])]
        rw [List.count_eq_zero]
        intro hmem
        rw [List.mem_filter] at hmem
        simp [h2] at hmem
      · rw [if_pos ⟨h1, h2⟩]
        apply List.count_eq_one_of_mem
        · exact (List.nodup_dedup _).filter _
        · rw [List.mem_filter]
          exact ⟨h1, by simp [h2]⟩
    · rw [if_neg (by simp [h1])]
      rw [List.count_eq_zero]
      intro hmem
      rw [List.mem_filter] at hmem
      exact h1 hmem.1

/-- C9 witnessed at two concrete modes sharing one variable name with
different values: validation succeeds. -/
theorem claim9_validate_w :
    (exMC9.modes.map Prod.fst).Nodup ∧
    (((exMC9.validate.isValid = true) ↔
        (∀ p₁ p₂, p₁ ∈ exMC9.modes → p₂ ∈ exMC9.modes →
          ∀ n, n ∈ p₁.2.names ↔ n ∈ p₂.2.names)) ∧
      (∀ (m : String) (vc : VariableCollection) (n : String), (m, vc) ∈ exMC9.modes →
        exMC9.validate.errors.count (ModeError.missingVariable m n) =
          if n ∈ exMC9.allNames ∧ ¬ n ∈ vc.names then 1 else 0)) :=
  ⟨by decide, claim9_validate exMC9 (by decide)⟩

/-- C8: resolving a reference consults exactly the variables already
inserted: it returns the stored resolved value when the prefixed referenced
name is present, and an undefined-reference error otherwise; hence a
reference to a name declared earlier in the same merge resolves, while the
same two declarations in the opposite order fail — single-pass, no forward
references. -/
theorem claim8_reference_resolution :
    (∀ (vc : VariableCollection) (n : String),
        (∃ var, vc.getByName (getFullName vc.pfx (splitDots n)) = some var ∧
            vc.resolveLeaf (.reference n) = .ok var.value) ∨
        (vc.getByName (getFullName vc.pfx (splitDots n)) = none ∧
            vc.resolveLeaf (.reference n) =
              .error (.undefinedReference vc.mode n))) ∧
    VariableCollection.addFromObject ⟨"light", "colors", []⟩
        [("b", .literal (.str "x")), ("a", .reference "b")] =
      .ok ⟨"light", "colors",
        [⟨"colors-b", .scalar (.str "x"), ["b"]⟩,
         ⟨"colors-a", .scalar (.str "x"), ["a"]⟩]⟩ ∧
    VariableCollection.addFromObject ⟨"light", "colors", []⟩
        [("a", .reference "b"), ("b", .literal (.str "x"))] =
      .error (.undefinedReference "light" "b") := by
  refine ⟨?_, ?_, ?_⟩
  · intro vc n
    cases h : vc.getByName (getFullName vc.pfx (splitDots n)) with
    | none => exact Or.inr ⟨rfl, by simp [VariableCollection.resolveLeaf, h]⟩
    | some var => exact Or.inl ⟨var, rfl, by simp [VariableCollection.resolveLeaf, h]⟩
  · simp [VariableCollection.addFromObject, addFromObjectAux,
      VariableCollection.resolveLeaf, VariableCollection.getByName,
      VariableCollection.insert, replaceVar, getFullName, joinDotsStr,
      splitDots, splitCharsAux]
  · simp [VariableCollection.addFromObject, addFromObjectAux,
      VariableCollection.resolveLeaf, VariableCollection.getByName,
      VariableCollection.insert, replaceVar, getFullName, joinDotsStr,
      splitDots, splitCharsAux]

theorem replaceVar_fresh (v : Variable) :
    ∀ l : List Variable, ¬ v.name ∈ l.map (fun w => w.name) →
      replaceVar l v = l ++ [v] := by
  intro l
  induction l with
  | nil => intro; rfl
  | cons w t ih =>
    intro h
    rw [List.map_cons, List.mem_cons] at h
    push_neg at h
    show (if w.name = v.name then v :: t else w :: replaceVar t v) = _
    rw [if_neg (fun he => h.1 he.symm), ih h.2]
    rfl

theorem insert_fresh (vc : VariableCollection) (v : Variable) :
    ¬ v.name ∈ vc.vars.map (fun w => w.name) →
    vc.insert v = { vc with vars := vc.vars ++ [v] } := by
  intro h
  show { vc with vars := replaceVar vc.vars v } = _
  rw [replaceVar_fresh v vc.vars h]

theorem getByName_mono (vc₁ vc₂ : VariableCollection)
    (h : ∃ ext, vc₂.vars = vc₁.vars ++ ext) (x : String) (var : Variable) :
    vc₁.getByName x = some var → vc₂.getByName x = some var := by
  obtain ⟨ext, hext⟩ := h
  intro hf
  show vc₂.vars.find? _ = some var
  rw [hext, List.find?_append]
  have : vc₁.vars.find? (fun v => decide (v.name = x)) = some var := hf
  rw [this]
  rfl

theorem LeafVal_mono (vc₁ vc₂ : VariableCollection) (hpfx : vc₂.pfx = vc₁.pfx)
    (hvars : ∃ ext, vc₂.vars = vc₁.vars ++ ext) :
    ∀ t v, LeafVal vc₁ t v → LeafVal vc₂ t v := by
  intro t v h
  cases h with
  | literal s => exact .literal vc₂ s
  | deferredFn i => exact .deferredFn vc₂ i
  | reference n var hf =>
    refine .reference vc₂ n var ?_
    rw [hpfx]
    exact getByName_mono vc₁ vc₂ hvars _ var hf

theorem RelVars_mono (vc₁ vc₂ : VariableCollection) (hpfx : vc₂.pfx = vc₁.pfx)
    (hvars : ∃ ext, vc₂.vars = vc₁.vars ++ ext) :
    ∀ es pvs, RelVars vc₁ es pvs → RelVars vc₂ es pvs := by
  intro es pvs h
  induction h with
  | nil => exact .nil vc₂
  | leaf k t v rest pvs hlv _ ih =>
    exact .leaf vc₂ k t v rest pvs (LeafVal_mono vc₁ vc₂ hpfx hvars t v hlv) ih
  | nested k cs rest pvs1 pvs2 _ _ ih1 ih2 =>
    exact .nested vc₂ k cs rest pvs1 pvs2 ih1 ih2

theorem LeafVal_TokenMatches (vc : VariableCollection) :
    ∀ t v, LeafVal vc t v → TokenMatches vc t (.leaf v) := by
  intro t v h
  cases h with
  | literal s => exact .literal vc s
  | deferredFn i => exact .deferredFn vc i
  | reference n var hf => exact .reference vc n var hf

theorem resolveLeaf_ok_LeafVal (vc : VariableCollection) :
    ∀ t v, vc.resolveLeaf t = .ok v → LeafVal vc t v := by
  intro t v h
  cases t with
  | literal s =>
    have hv : Value.scalar s = v := by
      simpa [VariableCollection.resolveLeaf] using h
    rw [← hv]
    exact .literal vc s
  | deferredFn i =>
    have hv : Value.deferred i = v := by
      simpa [VariableCollection.resolveLeaf] using h
    rw [← hv]
    exact .deferredFn vc i
  | reference n =>
    cases hg : vc.getByName (getFullName vc.pfx (splitDots n)) with
    | some var =>
      have hv : var.value = v := by
        simpa [VariableCollection.resolveLeaf, hg] using h
      rw [← hv]
      exact .reference vc n var hg
    | none => simp [VariableCollection.resolveLeaf, hg] at h
  | nested cs => simp [VariableCollection.resolveLeaf] at h

theorem mkSub_node (p : List String) (v : Value) :
    p ≠ [] → mkSub p v = .node (addPath [] p v) := by
  intro h
  cases p with
  | nil => exact absurd rfl h
  | cons k rest => simp [mkSub, addPath]

theorem addPath_fresh (v : Value) (k : String) (p : List String) :
    ∀ acc : List (String × OutTree), ¬ k ∈ acc.map Prod.fst →
      addPath acc (k :: p) v = acc ++ [(k, mkSub p v)] := by
  intro acc
  induction acc with
  | nil => intro; simp [addPath]
  | cons e t ih =>
    intro h
    obtain ⟨k2, t2⟩ := e
    rw [List.map_cons, List.mem_cons] at h
    push_neg at h
    rw [addPath.eq_def]
    simp only []
    rw [if_neg (fun he => h.1 he.symm), ih h.2]
    rfl

theorem addPath_last_node (v : Value) (k : String) (C : List (String × OutTree))
    (p : List String) (hp : p ≠ []) :
    ∀ acc : List (String × OutTree), ¬ k ∈ acc.map Prod.fst →
      addPath (acc ++ [(k, .node C)]) (k :: p) v =
        acc ++ [(k, .node (addPath C p v))] := by
  intro acc
  induction acc with
  | nil =>
    intro
    cases p with
    | nil => exact absurd rfl hp
    | cons r1 rs => simp [addPath]
  | cons e t ih =>
    intro h
    obtain ⟨k2, t2⟩ := e
    rw [List.map_cons, List.mem_cons] at h
    push_neg at h
    rw [List.cons_append, addPath.eq_def]
    simp only []
    rw [if_neg (fun he => h.1 he.symm), ih h.2]
    rfl

theorem isEmpty_false_ne_nil {α : Type} {l : List α} (h : l.isEmpty = false) :
    l ≠ [] := by
  cases l with
  | nil => simp at h
  | cons a t => simp

theorem wfEntries_cons_nested (k : String) (cs rest : List (String × Token)) :
    wfEntries ((k, .nested cs) :: rest) = true →
      ¬ '.' ∈ k.data ∧ ¬ k ∈ rest.map Prod.fst ∧ cs ≠ [] ∧
        wfEntries cs = true ∧ wfEntries rest = true := by
  intro h
  rw [wfEntries.eq_def] at h
  simp only [Bool.and_eq_true, Bool.not_eq_true', decide_eq_false_iff_not] at h
  exact ⟨h.1.1.1.1, h.1.1.1.2, isEmpty_false_ne_nil h.1.1.2, h.1.2, h.2⟩

theorem wfEntries_cons_any (k : String) (t : Token) (rest : List (String × Token)) :
    wfEntries ((k, t) :: rest) = true →
      ¬ '.' ∈ k.data ∧ ¬ k ∈ rest.map Prod.fst ∧ wfEntries rest = true := by
  cases t with
  | nested cs =>
    intro h
    have h' := wfEntries_cons_nested k cs rest h
    exact ⟨h'.1, h'.2.1, h'.2.2.2.2⟩
  | literal s =>
    intro h
    rw [wfEntries.eq_def] at h
    simp only [Bool.and_eq_true, Bool.not_eq_true', decide_eq_false_iff_not] at h
    exact ⟨h.1.1, h.1.2, h.2⟩
  | reference n =>
    intro h
    rw [wfEntries.eq_def] at h
    simp only [Bool.and_eq_true, Bool.not_eq_true', decide_eq_false_iff_not] at h
    exact ⟨h.1.1, h.1.2, h.2⟩
  | deferredFn i =>
    intro h
    rw [wfEntries.eq_def] at h
    simp only [Bool.and_eq_true, Bool.not_eq_true', decide_eq_false_iff_not] at h
    exact ⟨h.1.1, h.1.2, h.2⟩

theorem RelVars_paths_ne_nil (vc : VariableCollection) :
    ∀ es pvs, RelVars vc es pvs → ∀ pv ∈ pvs, pv.1 ≠ [] := by
  intro es pvs h
  induction h with
  | nil => simp
  | leaf k t v rest pvs _ _ ih =>
    intro pv hpv
    rcases List.mem_cons.mp hpv with h1 | h2
    · rw [h1]; simp
    · exact ih pv h2
  | nested k cs rest pvs1 pvs2 _ _ ih1 ih2 =>
    intro pv hpv
    rcases List.mem_append.mp hpv with h1 | h2
    · obtain ⟨q, _, rfl⟩ := List.mem_map.mp h1
      simp
    · exact ih2 pv h2

theorem RelVars_ne_nil (vc : VariableCollection) :
    ∀ es pvs, RelVars vc es pvs → wfEntries es = true → es ≠ [] → pvs ≠ [] := by
  intro es pvs h
  induction h with
  | nil => intro _ hne; exact absurd rfl hne
  | leaf k t v rest pvs _ _ _ => intro _ _; simp
  | nested k cs rest pvs1 pvs2 h1 _ ih1 _ =>
    intro hwf _
    have h' := wfEntries_cons_nested k cs rest hwf
    have hp1 : pvs1 ≠ [] := ih1 h'.2.2.2.1 h'.2.2.1
    simp [hp1]

theorem foldl_addPath_under (k : String) :
    ∀ (pvs : List (List String × Value)) (acc C : List (String × OutTree)),
      ¬ k ∈ acc.map Prod.fst →
      (∀ pv ∈ pvs, pv.1 ≠ []) →
      (pvs.map (fun pv => (k :: pv.1, pv.2))).foldl
          (fun cs pv => addPath cs pv.1 pv.2) (acc ++ [(k, .node C)]) =
        acc ++ [(k, .node (pvs.foldl (fun cs pv => addPath cs pv.1 pv.2) C))] := by
  intro pvs
  induction pvs with
  | nil => intro acc C _ _; rfl
  | cons pv t ih =>
    intro acc C h hne
    rw [List.map_cons, List.foldl_cons, List.foldl_cons]
    show (t.map (fun pv => (k :: pv.1, pv.2))).foldl _
        (addPath (acc ++ [(k, .node C)]) (k :: pv.1) pv.2) = _
    rw [addPath_last_node pv.2 k C pv.1 (hne pv (List.mem_cons_self pv t)) acc h]
    exact ih acc (addPath C pv.1 pv.2) h
      (fun q hq => hne q (List.mem_cons_of_mem _ hq))

theorem foldl_addPath_nested (k : String)
    (pvs : List (List String × Value)) (acc : List (String × OutTree)) :
    ¬ k ∈ acc.map Prod.fst → pvs ≠ [] → (∀ pv ∈ pvs, pv.1 ≠ []) →
    (pvs.map (fun pv => (k :: pv.1, pv.2))).foldl
        (fun cs pv => addPath cs pv.1 pv.2) acc =
      acc ++ [(k, .node (pvs.foldl (fun cs pv => addPath cs pv.1 pv.2) []))] := by
  intro hk hne hpaths
  cases pvs with
  | nil => exact absurd rfl hne
  | cons pv t =>
    rw [List.map_cons, List.foldl_cons, List.foldl_cons]
    show (t.map (fun pv => (k :: pv.1, pv.2))).foldl _
        (addPath acc (k :: pv.1) pv.2) = _
    rw [addPath_fresh pv.2 k pv.1 acc hk,
      mkSub_node pv.1 pv.2 (hpaths pv (List.mem_cons_self pv t))]
    exact foldl_addPath_under k t acc (addPath [] pv.1 pv.2) hk
      (fun q hq => hpaths q (List.mem_cons_of_mem _ hq))

theorem foldl_addPath_matches (vc : VariableCollection) :
    ∀ (es : List (String × Token)) (pvs : List (List String × Value)),
      RelVars vc es pvs → wfEntries es = true →
      ∀ acc : List (String × OutTree),
        (∀ x ∈ es.map Prod.fst, ¬ x ∈ acc.map Prod.fst) →
        ∃ out,
          pvs.foldl (fun cs pv => addPath cs pv.1 pv.2) acc = acc ++ out ∧
          EntriesMatch vc es out := by
  intro es pvs h
  induction h with
  | nil => intro _ acc _; exact ⟨[], by simp, .nil vc⟩
  | leaf k t v rest pvs hlv hrest ih =>
    intro hwf acc hacc
    have hk : ¬ k ∈ acc.map Prod.fst :=
      hacc k (by simp)
    have h' := wfEntries_cons_any k t rest hwf
    rw [List.foldl_cons]
    show ∃ out, pvs.foldl (fun cs pv => addPath cs pv.1 pv.2) (addPath acc [k] v) =
        acc ++ out ∧ EntriesMatch vc ((k, t) :: rest) out
    have hstep : addPath acc [k] v = acc ++ [(k, .leaf v)] := by
      have := addPath_fresh v k [] acc hk
      simpa [mkSub] using this
    rw [hstep]
    obtain ⟨out', heq, hm⟩ := ih h'.2.2 (acc ++ [(k, .leaf v)])
      (by
        intro x hx hmem
        rcases List.mem_append.mp ((List.map_append Prod.fst _ _ ▸ hmem)) with h1 | h2
        · exact hacc x (List.mem_cons_of_mem _ hx) h1
        · have : x = k := by simpa using h2
          exact h'.2.1 (this ▸ hx))
    refine ⟨(k, .leaf v) :: out', ?_, ?_⟩
    · rw [heq, List.append_assoc]
      rfl
    · exact .cons vc k t (.leaf v) rest out' (LeafVal_TokenMatches vc t v hlv) hm
  | nested k cs rest pvs1 pvs2 h1 h2 ih1 ih2 =>
    intro hwf acc hacc
    have h' := wfEntries_cons_nested k cs rest hwf
    have hk : ¬ k ∈ acc.map Prod.fst := hacc k (by simp)
    rw [List.foldl_append]
    have hp1ne : pvs1 ≠ [] := RelVars_ne_nil vc cs pvs1 h1 h'.2.2.2.1 h'.2.2.1
    have hpaths := RelVars_paths_ne_nil vc cs pvs1 h1
    rw [foldl_addPath_nested k pvs1 acc hk hp1ne hpaths]
    obtain ⟨out1, heq1, hm1⟩ := ih1 h'.2.2.2.1 [] (by simp)
    rw [show pvs1.foldl (fun cs pv => addPath cs pv.1 pv.2) [] = out1 from by
      rw [heq1]; simp]
    obtain ⟨out2, heq2, hm2⟩ := ih2 h'.2.2.2.2 (acc ++ [(k, .node out1)])
      (by
        intro x hx hmem
        rcases List.mem_append.mp ((List.map_append Prod.fst _ _ ▸ hmem)) with ha | hb
        · exact hacc x (List.mem_cons_of_mem _ hx) ha
        · have : x = k := by simpa using hb
          exact h'.2.1 (this ▸ hx))
    refine ⟨(k, .node out1) :: out2, ?_, ?_⟩
    · rw [heq2, List.append_assoc]
      rfl
    · exact .cons vc k (.nested cs) (.node out1) rest out2
        (.nested vc cs out1 hm1) hm2

theorem relPaths_nil : relPaths [] = [] := by
  rw [relPaths.eq_def]

theorem relPaths_nested_eq (k : String) (cs rest : List (String × Token)) :
    relPaths ((k, .nested cs) :: rest) =
      (relPaths cs).map (fun p => k :: p) ++ relPaths rest := by
  rw [relPaths.eq_def]

theorem relPaths_leaf_eq (k : String) (t : Token) (rest : List (String × Token))
    (h : ∀ cs, t = Token.nested cs → False) :
    relPaths ((k, t) :: rest) = [k] :: relPaths rest := by
  cases t with
  | nested cs => exact (h cs rfl).elim
  | literal s => rw [relPaths.eq_def]
  | reference n => rw [relPaths.eq_def]
  | deferredFn i => rw [relPaths.eq_def]

theorem wf_relPaths_props :
    ∀ es, wfEntries es = true →
      ∀ p ∈ relPaths es, p ≠ [] ∧ ∀ s ∈ p, ¬ '.' ∈ s.data := by
  intro es
  induction es using relPaths.induct with
  | case1 => intro _ p hp; rw [relPaths_nil] at hp; simp at hp
  | case2 k cs rest ih1 ih2 =>
    intro hwf p hp
    have h' := wfEntries_cons_nested k cs rest hwf
    rw [relPaths_nested_eq] at hp
    rcases List.mem_append.mp hp with h1 | h2
    · obtain ⟨q, hq, rfl⟩ := List.mem_map.mp h1
      have hq' := ih1 h'.2.2.2.1 q hq
      refine ⟨by simp, ?_⟩
      intro s hs
      rcases List.mem_cons.mp hs with rfl | hs2
      · exact h'.1
      · exact hq'.2 s hs2
    · exact ih2 h'.2.2.2.2 p h2
  | case3 k t rest hnn ih =>
    intro hwf p hp
    have h' := wfEntries_cons_any k t rest hwf
    rw [relPaths_leaf_eq k t rest hnn] at hp
    rcases List.mem_cons.mp hp with rfl | h2
    · refine ⟨by simp, ?_⟩
      intro s hs
      rcases List.mem_cons.mp hs with rfl | hs2
      · exact h'.1
      · simp at hs2
    · exact ih h'.2.2 p h2

theorem relPaths_head :
    ∀ es, ∀ p ∈ relPaths es, ∃ k ∈ es.map Prod.fst, ∃ tl, p = k :: tl := by
  intro es
  induction es using relPaths.induct with
  | case1 => intro p hp; rw [relPaths_nil] at hp; simp at hp
  | case2 k cs rest ih1 ih2 =>
    intro p hp
    rw [relPaths_nested_eq] at hp
    rcases List.mem_append.mp hp with h1 | h2
    · obtain ⟨q, _, rfl⟩ := List.mem_map.mp h1
      exact ⟨k, by simp, q, rfl⟩
    · obtain ⟨k', hk', tl, rfl⟩ := ih2 p h2
      exact ⟨k', by simp [List.mem_cons_of_mem]; right; simpa using hk', tl, rfl⟩
  | case3 k t rest hnn ih =>
    intro p hp
    rw [relPaths_leaf_eq k t rest hnn] at hp
    rcases List.mem_cons.mp hp with rfl | h2
    · exact ⟨k, by simp, [], rfl⟩
    · obtain ⟨k', hk', tl, rfl⟩ := ih p h2
      exact ⟨k', by simp; right; simpa using hk', tl, rfl⟩

theorem wf_relPaths_nodup :
    ∀ es, wfEntries es = true → (relPaths es).Nodup := by
  intro es
  induction es using relPaths.induct with
  | case1 => rw [relPaths_nil]; intro _; exact List.nodup_nil
  | case2 k cs rest ih1 ih2 =>
    intro hwf
    have h' := wfEntries_cons_nested k cs rest hwf
    rw [relPaths_nested_eq]
    refine List.Nodup.append ?_ (ih2 h'.2.2.2.2) ?_
    · exact (ih1 h'.2.2.2.1).map (fun a b hab => by injection hab)
    · intro x hx1 hx2
      obtain ⟨q, _, rfl⟩ := List.mem_map.mp hx1
      obtain ⟨k', hk', tl, heq⟩ := relPaths_head rest (k :: q) hx2
      have : k = k' := by injection heq
      exact h'.2.1 (by rw [this]; simpa using hk')
  | case3 k t rest hnn ih =>
    intro hwf
    have h' := wfEntries_cons_any k t rest hwf
    rw [relPaths_leaf_eq k t rest hnn]
    refine List.nodup_cons.mpr ⟨?_, ih h'.2.2⟩
    intro hmem
    obtain ⟨k', hk', tl, heq⟩ := relPaths_head rest [k] hmem
    have : k = k' := by injection heq
    exact h'.2.1 (by rw [this]; simpa using hk')

theorem wf_names_nodup (pfx : String) (es : List (String × Token))
    (hwf : wfEntries es = true) :
    ((relPaths es).map (fun p => getFullName pfx p)).Nodup := by
  refine List.Nodup.map_on ?_ (wf_relPaths_nodup es hwf)
  intro x hx y hy hxy
  have px := wf_relPaths_props es hwf x hx
  have py := wf_relPaths_props es hwf y hy
  exact getFullName_inj_same_pfx pfx x y px.1 py.1 px.2 py.2 hxy

theorem mkVar_cons (pfx : String) (path : List String) (k : String)
    (q : List String) (w : Value) :
    mkVar pfx path (k :: q, w) = mkVar pfx (path ++ [k]) (q, w) := by
  show ({ name := getFullName pfx (path ++ (k :: q)), value := w,
          path := path ++ (k :: q) } : Variable) = _
  rw [List.append_cons]
  rfl

theorem addAux_spec :
    ∀ (vc : VariableCollection) (path : List String) (es : List (String × Token))
      (vc' : VariableCollection),
      addFromObjectAux vc path es = .ok vc' →
      ((relPaths es).map (fun p => getFullName vc.pfx (path ++ p))).Nodup →
      (∀ p ∈ relPaths es,
        ¬ getFullName vc.pfx (path ++ p) ∈ vc.vars.map (fun w => w.name)) →
      vc'.mode = vc.mode ∧ vc'.pfx = vc.pfx ∧
      ∃ pvs, RelVars vc' es pvs ∧ pvs.map (fun pv => pv.1) = relPaths es ∧
        vc'.vars = vc.vars ++ pvs.map (mkVar vc.pfx path) := by
  intro vc path es
  induction vc, path, es using addFromObjectAux.induct with
  | case1 vc path =>
    intro vc' h _ _
    have hvc : vc = vc' := by simpa [addFromObjectAux] using h
    subst hvc
    exact ⟨rfl, rfl, [], .nil vc, by rw [relPaths_nil]; rfl, by simp⟩
  | case2 vc path k cs rest e herr ih =>
    intro vc' h _ _
    rw [addFromObjectAux.eq_def] at h
    simp only [] at h
    rw [herr] at h
    exact Except.noConfusion h
  | case3 vc path k cs rest vc2 hok ih1 ih2 =>
    intro vc' h hnd hfr
    rw [addFromObjectAux.eq_def] at h
    simp only [] at h
    rw [hok] at h
    have hccons : (fun p : List String => getFullName vc.pfx (path ++ k :: p)) =
        (fun p => getFullName vc.pfx ((path ++ [k]) ++ p)) := by
      funext p
      rw [List.append_cons]
    have hsplit :
        (relPaths ((k, Token.nested cs) :: rest)).map
            (fun p => getFullName vc.pfx (path ++ p)) =
          (relPaths cs).map (fun p => getFullName vc.pfx ((path ++ [k]) ++ p)) ++
            (relPaths rest).map (fun p => getFullName vc.pfx (path ++ p)) := by
      rw [relPaths_nested_eq, List.map_append, List.map_map]
      rw [show ((fun p => getFullName vc.pfx (path ++ p)) ∘ fun p => k :: p) =
          (fun p : List String => getFullName vc.pfx (path ++ k :: p)) from rfl]
      rw [hccons]
    rw [hsplit] at hnd
    obtain ⟨nd₁, nd₂, hdisj⟩ := List.nodup_append.mp hnd
    have fr₁ : ∀ p ∈ relPaths cs,
        ¬ getFullName vc.pfx ((path ++ [k]) ++ p) ∈
          vc.vars.map (fun w => w.name) := by
      intro p hp
      have hpes : (k :: p) ∈ relPaths ((k, Token.nested cs) :: rest) := by
        rw [relPaths_nested_eq]
        exact List.mem_append_left _ (List.mem_map_of_mem _ hp)
      have hh := hfr (k :: p) hpes
      rw [List.append_cons] at hh
      exact hh
    obtain ⟨hmode2, hpfx2, pvs1, hrel1, hpaths1, hvars2⟩ := ih1 vc2 hok nd₁ fr₁
    have hnames1 : pvs1.map (fun pv => getFullName vc.pfx ((path ++ [k]) ++ pv.1)) =
        (relPaths cs).map (fun p => getFullName vc.pfx ((path ++ [k]) ++ p)) := by
      rw [← hpaths1, List.map_map]
      rfl
    have nd₂' : ((relPaths rest).map
        (fun p => getFullName vc2.pfx (path ++ p))).Nodup := by
      rw [hpfx2]
      exact nd₂
    have fr₂ : ∀ p ∈ relPaths rest,
        ¬ getFullName vc2.pfx (path ++ p) ∈ vc2.vars.map (fun w => w.name) := by
      intro p hp hmem
      rw [hpfx2, hvars2, List.map_append] at hmem
      rcases List.mem_append.mp hmem with h1 | h2
      · have hpes : p ∈ relPaths ((k, Token.nested cs) :: rest) := by
          rw [relPaths_nested_eq]
          exact List.mem_append_right _ hp
        exact hfr p hpes h1
      · rw [List.map_map] at h2
        have hcomp : ((fun w : Variable => w.name) ∘ mkVar vc.pfx (path ++ [k])) =
            (fun pv : List String × Value =>
              getFullName vc.pfx ((path ++ [k]) ++ pv.1)) := by
          funext pv
          rfl
        rw [hcomp, hnames1] at h2
        exact hdisj h2 (List.mem_map_of_mem _ hp)
    obtain ⟨hmode', hpfx', pvs2, hrel2, hpaths2, hvars'⟩ := ih2 vc' h nd₂' fr₂
    refine ⟨hmode'.trans hmode2, hpfx'.trans hpfx2,
      pvs1.map (fun pv => (k :: pv.1, pv.2)) ++ pvs2, ?_, ?_, ?_⟩
    · refine .nested vc' k cs rest pvs1 pvs2 ?_ hrel2
      exact RelVars_mono vc2 vc' hpfx' ⟨pvs2.map (mkVar vc2.pfx path), hvars'⟩
        cs pvs1 hrel1
    · rw [List.map_append, List.map_map, relPaths_nested_eq, hpaths2, ← hpaths1,
        List.map_map]
      rfl
    · rw [hvars', hvars2, List.append_assoc]
      congr 1
      rw [List.map_append, List.map_map]
      have hA : pvs1.map (mkVar vc.pfx path ∘ fun pv => (k :: pv.1, pv.2)) =
          pvs1.map (mkVar vc.pfx (path ++ [k])) := by
        apply List.map_congr_left
        intro pv _
        show mkVar vc.pfx path (k :: pv.1, pv.2) = _
        rw [mkVar_cons]
      have hB : pvs2.map (mkVar vc2.pfx path) = pvs2.map (mkVar vc.pfx path) := by
        rw [hpfx2]
      rw [hA, hB]
  | case4 vc path k t rest hnn e herr =>
    intro vc' h _ _
    cases t with
    | nested cs => exact (hnn cs rfl).elim
    | literal s =>
      rw [addFromObjectAux.eq_def] at h
      simp only [] at h
      rw [herr] at h
      exact Except.noConfusion h
    | reference n =>
      rw [addFromObjectAux.eq_def] at h
      simp only [] at h
      rw [herr] at h
      exact Except.noConfusion h
    | deferredFn i =>
      rw [addFromObjectAux.eq_def] at h
      simp only [] at h
      rw [herr] at h
      exact Except.noConfusion h
  | case5 vc path k t rest hnn v hres ih =>
    intro vc' h hnd hfr
    have hleaf := relPaths_leaf_eq k t rest hnn
    rw [hleaf] at hnd hfr
    have hred : addFromObjectAux
        (vc.insert { name := getFullName vc.pfx (path ++ [k]), value := v,
                     path := path ++ [k] }) path rest = .ok vc' := by
      cases t with
      | nested cs => exact (hnn cs rfl).elim
      | literal s =>
        rw [addFromObjectAux.eq_def] at h
        simp only [] at h
        rw [hres] at h
        exact h
      | reference n =>
        rw [addFromObjectAux.eq_def] at h
        simp only [] at h
        rw [hres] at h
        exact h
      | deferredFn i =>
        rw [addFromObjectAux.eq_def] at h
        simp only [] at h
        rw [hres] at h
        exact h
    have hfresh0 : ¬ getFullName vc.pfx (path ++ [k]) ∈
        vc.vars.map (fun w => w.name) :=
      hfr [k] (List.mem_cons_self _ _)
    have hins := insert_fresh vc { name := getFullName vc.pfx (path ++ [k]), value := v, path := path ++ [k] } hfresh0
    rw [hins] at hred ih
    obtain ⟨hnotmem, ndrest⟩ := List.nodup_cons.mp hnd
    have fr' : ∀ p ∈ relPaths rest,
        ¬ getFullName vc.pfx (path ++ p) ∈
          (vc.vars ++ [({ name := getFullName vc.pfx (path ++ [k]), value := v, path := path ++ [k] } : Variable)]).map (fun w => w.name) := by
      intro p hp hmem
      rw [List.map_append] at hmem
      rcases List.mem_append.mp hmem with h1 | h2
      · exact hfr p (List.mem_cons_of_mem _ hp) h1
      · have heq : getFullName vc.pfx (path ++ p) =
            getFullName vc.pfx (path ++ [k]) := by
          simpa using h2
        apply hnotmem
        show getFullName vc.pfx (path ++ [k]) ∈
          (relPaths rest).map (fun q => getFullName vc.pfx (path ++ q))
        rw [← heq]
        exact List.mem_map_of_mem _ hp
    obtain ⟨hmode', hpfx', pvs2, hrel2, hpaths2, hvars'⟩ := ih vc' hred ndrest fr'
    refine ⟨hmode', hpfx', ([k], v) :: pvs2, ?_, ?_, ?_⟩
    · refine .leaf vc' k t v rest pvs2 ?_ hrel2
      refine LeafVal_mono vc vc' hpfx'
        ⟨[({ name := getFullName vc.pfx (path ++ [k]), value := v, path := path ++ [k] } : Variable)] ++ pvs2.map (mkVar vc.pfx path), ?_⟩
        t v (resolveLeaf_ok_LeafVal vc t v hres)
      rw [hvars', List.append_assoc]
    · rw [List.map_cons, hpaths2, hleaf]
    · rw [hvars', List.append_assoc]
      rfl

/-- C7: flattening a well-formed nested token tree into an empty collection
with `addFromObject` and then reconstructing with `tree()` yields a nested
object structurally equal to the original, with each reference expression
replaced by its resolved value. -/
theorem claim7_round_trip :
    ∀ (es : List (String × Token)) (m p : String) (vc : VariableCollection),
      wfEntries es = true →
      VariableCollection.addFromObject ⟨m, p, []⟩ es = .ok vc →
      EntriesMatch vc es vc.tree := by
  intro es m p vc hwf hadd
  have hnodup : ((relPaths es).map (fun q =>
      getFullName (VariableCollection.mk m p []).pfx ([] ++ q))).Nodup :=
    wf_names_nodup p es hwf
  have hfr : ∀ q ∈ relPaths es,
      ¬ getFullName (VariableCollection.mk m p []).pfx ([] ++ q) ∈
        ((VariableCollection.mk m p []).vars).map (fun w => w.name) := by
    simp
  obtain ⟨hmode, hpfx, pvs, hrel, hpaths, hvars⟩ :=
    addAux_spec (VariableCollection.mk m p []) [] es vc hadd hnodup hfr
  have htree : vc.tree = pvs.foldl (fun cs pv => addPath cs pv.1 pv.2) [] := by
    unfold VariableCollection.tree
    rw [hvars]
    rw [show ([] : List Variable) ++ pvs.map (mkVar p []) = pvs.map (mkVar p []) from rfl]
    rw [List.foldl_map]
    rfl
  obtain ⟨out, hout, hm⟩ := foldl_addPath_matches vc es pvs hrel hwf [] (by simp)
  rw [htree, hout]
  simpa using hm

/-- C7 witnessed at a concrete two-level tree with a reference. -/
theorem claim7_round_trip_w :
    wfEntries exEntries7 = true ∧
    VariableCollection.addFromObject ⟨"light", "colors", []⟩ exEntries7 =
      .ok exVC7 ∧
    EntriesMatch exVC7 exEntries7 exVC7.tree := by
  have hw : wfEntries exEntries7 = true := by
    simp [wfEntries, exEntries7]
  have ha : VariableCollection.addFromObject ⟨"light", "colors", []⟩ exEntries7 =
      .ok exVC7 := by
    simp [VariableCollection.addFromObject, addFromObjectAux, exEntries7,
      VariableCollection.resolveLeaf, VariableCollection.getByName,
      VariableCollection.insert, replaceVar, getFullName, joinDotsStr,
      splitDots, splitCharsAux, exVC7]
  exact ⟨hw, ha, claim7_round_trip exEntries7 "light" "colors" exVC7 hw ha⟩
